import Mathlib

set_option maxRecDepth 8192

/-!
Verification of the filter-state / hash-codec / match-engine logic of the
geoguessr-helper front end (src/js/app.js).

JavaScript strings are modelled as `List Char` (Unicode scalar values, which
is what Lean's `Char` carries).  The browser built-ins the code calls
(`encodeURIComponent`, `decodeURIComponent`, `URLSearchParams`) are modelled
at the byte level following ECMA-262 / WHATWG URL: encoding percent-escapes
the UTF-8 bytes of every character outside the unreserved set;
`decodeURIComponent` is strict (a malformed escape throws, modelled by
`Option`); `URLSearchParams` decodes leniently (malformed escapes are kept
literally, `+` becomes a space).
-/

/-- JavaScript strings, as lists of Unicode scalar values. -/
abbrev Str := List Char

/-- Shorthand to build a `Str` from a Lean string literal. -/
def str (s : String) : Str := s.data

/-- The facet keys of the `FACETS` table (app.js lines 7-17).  The `type`
field of the table is never consulted by the logic, so only keys are kept. -/
def FACETS : List Str :=
  [str "cameras", str "driving", str "roadLine", str "flagColor",
   str "flagPattern", str "alphabet", str "scenery", str "uniqueLetter",
   str "years"]

/-- A country's stored value for one facet: absent, a scalar string, or an
array of strings (the tagged variant of spec §9). -/
inductive FacetValue where
  | absent
  | scalar (s : Str)
  | seq (vs : List Str)
deriving DecidableEq

/-- JavaScript truthiness of a facet value, as used by `if (!val) return false`
(app.js line 268): `undefined` and the empty string are falsy, arrays are
always truthy. -/
def jsFalsy : FacetValue → Bool
  | .absent => true
  | .scalar s => s.isEmpty
  | .seq _ => false

/-- The mutable `state` object: each facet key maps to the list of selected
values (a JS `Set` in insertion order, no duplicates). -/
abbrev FilterState := Str → List Str

/-- A country record: translated-name key plus the per-facet attributes. -/
structure CountryRec where
  name : Str
  attrs : Str → FacetValue

/-- The boot-time state: every facet's selection set is empty. -/
def emptyFilters : FilterState := fun _ => []

/-- `clearAll` (app.js lines 161-168), state part: every facet's set is
cleared. -/
def clearAll (st : FilterState) : FilterState :=
  fun k => if k ∈ FACETS then [] else st k

/-- One facet's test: the body of the loop of `matchesAllFilters`
(app.js lines 264-277).  An empty selection imposes no constraint; a falsy
stored value fails; an array value must contain every selected value; a
scalar value must be one of the selected values. -/
def facetTest (sel : List Str) (v : FacetValue) : Bool :=
  if sel.isEmpty then true
  else if jsFalsy v then false
  else match v with
    | .seq vs => sel.all (fun chosen => vs.contains chosen)
    | .scalar s => sel.contains s
    | .absent => false

/-- `matchesAllFilters` (app.js lines 262-280): a country passes iff it
passes every facet's test. -/
def matchesAllFilters (st : FilterState) (c : CountryRec) : Bool :=
  FACETS.all (fun k => facetTest (st k) (c.attrs k))

/-- The match computation of `render()` (app.js lines 399-404): the entries
of `metas` (code, record) that pass all filters, in table order. -/
def computeMatches (metas : List (Str × CountryRec)) (st : FilterState) :
    List (Str × CountryRec) :=
  metas.filter (fun p => matchesAllFilters st p.2)

/-- Uppercase hexadecimal digit, as produced by `encodeURIComponent`. -/
def hexDigitChar (n : Nat) : Char :=
  if n < 10 then Char.ofNat (48 + n) else Char.ofNat (55 + n)

/-- Value of one hexadecimal digit character (either case), `none` otherwise. -/
def hexVal (c : Char) : Option Nat :=
  if 48 ≤ c.toNat ∧ c.toNat ≤ 57 then some (c.toNat - 48)
  else if 65 ≤ c.toNat ∧ c.toNat ≤ 70 then some (c.toNat - 55)
  else if 97 ≤ c.toNat ∧ c.toNat ≤ 102 then some (c.toNat - 87)
  else none

/-- The characters `encodeURIComponent` leaves unescaped (ECMA-262):
ASCII alphanumerics and `- _ . ! ~ * ' ( )`. -/
def unreservedChar (c : Char) : Bool :=
  c.isAlpha || c.isDigit ||
    (['-', '_', '.', Char.ofNat 33, '~', '*', Char.ofNat 39, '(', ')'] : List Char).contains c

/-- UTF-8 encoding of one Unicode scalar value. -/
def utf8Bytes (n : Nat) : List Nat :=
  if n < 128 then [n]
  else if n < 2048 then [192 + n / 64, 128 + n % 64]
  else if n < 65536 then [224 + n / 4096, 128 + n / 64 % 64, 128 + n % 64]
  else [240 + n / 262144, 128 + n / 4096 % 64, 128 + n / 64 % 64, 128 + n % 64]

/-- UTF-8 encoding of a whole string. -/
def strBytes (s : Str) : List Nat := (s.map (fun c => utf8Bytes c.toNat)).flatten

/-- `%XX` escape of one byte (uppercase hex, as the builtin emits). -/
def pctEncodeByte (b : Nat) : Str := ['%', hexDigitChar (b / 16), hexDigitChar (b % 16)]

/-- Model of the browser builtin `encodeURIComponent`: unreserved characters
pass through, every other character's UTF-8 bytes are percent-escaped. -/
def encodeURIComponent (s : Str) : Str :=
  (s.map (fun c =>
    if unreservedChar c then [c] else ((utf8Bytes c.toNat).map pctEncodeByte).flatten)).flatten

/-- Is `b` a UTF-8 continuation byte? -/
def contByte (b : Nat) : Bool := 128 ≤ b && b < 192

/-- Decode one UTF-8 scalar from a two-byte sequence tail. -/
def utf8Step2 (b : Nat) : List Nat → Option (Nat × List Nat)
  | b1 :: rest2 =>
    if contByte b1 then some ((b - 192) * 64 + (b1 - 128), rest2) else none
  | [] => none

/-- Decode one UTF-8 scalar from a three-byte sequence tail (rejecting
overlong forms and surrogates). -/
def utf8Step3 (b : Nat) : List Nat → Option (Nat × List Nat)
  | b1 :: b2 :: rest2 =>
    if contByte b1 && contByte b2 && (b ≠ 224 || 160 ≤ b1) && (b ≠ 237 || b1 < 160) then
      some ((b - 224) * 4096 + (b1 - 128) * 64 + (b2 - 128), rest2)
    else none
  | _ => none

/-- Decode one UTF-8 scalar from a four-byte sequence tail (rejecting
overlong forms and values above U+10FFFF). -/
def utf8Step4 (b : Nat) : List Nat → Option (Nat × List Nat)
  | b1 :: b2 :: b3 :: rest2 =>
    if contByte b1 && contByte b2 && contByte b3 &&
        (b ≠ 240 || 144 ≤ b1) && (b ≠ 244 || b1 < 144) then
      some ((b - 240) * 262144 + (b1 - 128) * 4096 + (b2 - 128) * 64 + (b3 - 128), rest2)
    else none
  | _ => none

/-- Decode one UTF-8 scalar value from the front of a byte list, returning
it and the remaining bytes; `none` on empty input or a malformed sequence
(stray continuation byte, truncation, overlong form, surrogate). -/
def utf8Step : List Nat → Option (Nat × List Nat)
  | [] => none
  | b :: rest =>
    if b < 128 then some (b, rest)
    else if b < 194 then none
    else if b < 224 then utf8Step2 b rest
    else if b < 240 then utf8Step3 b rest
    else if b < 245 then utf8Step4 b rest
    else none

/-- Fuel-indexed strict UTF-8 decoding driver.  The wrapper passes the byte
count as fuel; one unit is spent per decoded scalar and every step consumes
at least one byte, so the `0, _ :: _` filler arm is unreachable from the
wrapper. -/
def utf8DecodeGo : Nat → List Nat → Option (List Nat)
  | _, [] => some []
  | 0, _ :: _ => none
  | fuel + 1, b :: rest =>
    (utf8Step (b :: rest)).bind (fun p => (utf8DecodeGo fuel p.2).map (fun t => p.1 :: t))

/-- Strict UTF-8 decoding to scalar values, as the builtin
`decodeURIComponent` performs on the percent-decoded bytes. -/
def utf8Decode (l : List Nat) : Option (List Nat) := utf8DecodeGo l.length l

/-- Fuel-indexed lenient UTF-8 decoding driver: on a malformed sequence,
emit U+FFFD and resume after one byte (error recovery simplified to one
replacement per offending byte; no theorem below exercises the error
branches). -/
def utf8LenientGo : Nat → List Nat → List Nat
  | _, [] => []
  | 0, _ :: _ => []
  | fuel + 1, b :: rest =>
    match utf8Step (b :: rest) with
    | some p => p.1 :: utf8LenientGo fuel p.2
    | none => 65533 :: utf8LenientGo fuel rest

/-- Lenient UTF-8 decoding, as `URLSearchParams` applies to its inputs. -/
def utf8DecodeLenient (l : List Nat) : List Nat := utf8LenientGo l.length l

/-- Strict percent-decoding to bytes (ECMA-262 `Decode`): `%` must be
followed by two hex digits; an unescaped character contributes its UTF-8
bytes.  `none` models the thrown `URIError`. -/
def pctDecodeBytes : Str → Option (List Nat)
  | [] => some []
  | c :: rest =>
    if c = '%' then
      match rest with
      | h :: l :: rest2 =>
        (match hexVal h, hexVal l with
         | some a, some b => (pctDecodeBytes rest2).map (fun t => (16 * a + b) :: t)
         | _, _ => none)
      | _ => none
    else (pctDecodeBytes rest).map (fun t => utf8Bytes c.toNat ++ t)

/-- Model of the browser builtin `decodeURIComponent` (strict; `none` is the
thrown `URIError`). -/
def decodeURIComponentModel (s : Str) : Option Str :=
  (pctDecodeBytes s).bind (fun bs => (utf8Decode bs).map (fun ps => ps.map Char.ofNat))

/-- Lenient percent-decoding to bytes, as `URLSearchParams` uses
(application/x-www-form-urlencoded): `+` becomes a space and a malformed
escape keeps its characters literally. -/
def formBytesGo : Nat → Str → List Nat
  | _, [] => []
  | 0, _ :: _ => []
  | fuel + 1, c :: rest =>
    if c = '%' then
      match rest with
      | h :: l :: rest2 =>
        (match hexVal h, hexVal l with
         | some a, some b => (16 * a + b) :: formBytesGo fuel rest2
         | _, _ => 37 :: formBytesGo fuel rest)
      | _ => 37 :: formBytesGo fuel rest
    else if c = '+' then 32 :: formBytesGo fuel rest
    else utf8Bytes c.toNat ++ formBytesGo fuel rest

def formBytes (s : Str) : List Nat := formBytesGo s.length s

/-- The lenient text decoding `URLSearchParams` applies to keys and values. -/
def formDecode (s : Str) : Str := (utf8DecodeLenient (formBytes s)).map Char.ofNat

/-- Split a string on every occurrence of `sep` (like JS `String.split` with
a one-character separator: empty pieces are kept). -/
def splitOnChar (sep : Char) : Str → List Str
  | [] => [[]]
  | c :: rest =>
    let r := splitOnChar sep rest
    if c = sep then [] :: r else (c :: r.headI) :: r.tail

/-- Split a `key=value` segment at its first `=`; a segment without `=` has
value `""` (WHATWG URL `urlencoded` parsing). -/
def splitFirstEq : Str → Str × Str
  | [] => ([], [])
  | c :: rest =>
    if c = '=' then ([], rest)
    else ((splitFirstEq rest).1.cons c, (splitFirstEq rest).2)

/-- The `URLSearchParams` constructor strips one leading `?`. -/
def uspInit : Str → Str
  | [] => []
  | c :: rest => if c = '?' then rest else c :: rest

/-- The decoded key/value pairs of a query string, in order; empty segments
are skipped. -/
def uspPairs (s : Str) : List (Str × Str) :=
  ((splitOnChar '&' (uspInit s)).filter (fun seg => !seg.isEmpty)).map
    (fun seg => (formDecode (splitFirstEq seg).1, formDecode (splitFirstEq seg).2))

/-- `URLSearchParams.get`: the value of the first pair with the given key,
or `none` (JS `null`). -/
def uspGet (s : Str) (key : Str) : Option Str :=
  ((uspPairs s).find? (fun p => p.1 = key)).map (fun p => p.2)

/-- Join strings with a one-character separator (JS `Array.flatten`). -/
def joinSep (sep : Char) : List Str → Str
  | [] => []
  | [s] => s
  | s :: rest => s ++ sep :: joinSep sep rest

/-- `serializeStateToHash` (app.js lines 492-508): the fragment written to
`window.location.hash`.  For each facet in `FACETS` order with a non-empty
selection it emits `key=v1,v2,...` (key and values percent-encoded, values
in set insertion order), then `country=<code>` when a truthy country code is
given, joined with `&` and prefixed by the `#!` sentinel. -/
def serializeStateToHash (st : FilterState) (countryCode : Option Str) : Str :=
  let ps := FACETS.filterMap (fun k =>
    if (st k).isEmpty then none
    else some (encodeURIComponent k ++ '=' :: joinSep ',' ((st k).map encodeURIComponent)))
  let ps := ps ++ (match countryCode with
    | some c => if c.isEmpty then [] else [str "country=" ++ encodeURIComponent c]
    | none => [])
  str "#!" ++ joinSep '&' ps

/-- JS `Set.add`: append if not already present. -/
def setAdd (l : List Str) (x : Str) : List Str := if x ∈ l then l else l ++ [x]

/-- Sequentially map a fallible function over a list, failing (throwing) as
soon as one application fails. -/
def mapOrThrow (f : α → Option β) : List α → Option (List β)
  | [] => some []
  | x :: xs => (f x).bind (fun y => (mapOrThrow f xs).map (fun ys => y :: ys))

/-- The restore of one facet inside `parseHashToState` (app.js lines
515-523): the set is cleared, and if `params.get(key)` is truthy the value
is split on `,` and each piece is `decodeURIComponent`ed and added.  `none`
models the `URIError` thrown by a malformed piece. -/
def facetFromHash (q : Str) (k : Str) : Option (List Str) :=
  match uspGet q k with
  | none => some []
  | some v =>
    if v.isEmpty then some []
    else (mapOrThrow decodeURIComponentModel (splitOnChar ',' v)).map (fun vs => vs.foldl setAdd [])

/-- Result of decoding a fragment: the new filter state and the country code
for which a modal is requested (if any). -/
structure ParseOutcome where
  state : FilterState
  modalCountry : Option Str

/-- `parseHashToState` (app.js lines 511-535).  A fragment not starting with
the `#!` sentinel is a no-op; otherwise every facet is restored from the
query string after the sentinel, and a truthy `country` parameter requests
the country modal.  `none` models a thrown `URIError`. -/
def parseHashToState (hash : Str) (st : FilterState) : Option ParseOutcome :=
  if (str "#!").isPrefixOf hash then
    let q := hash.drop 2
    (mapOrThrow (fun k => (facetFromHash q k).map (fun vs => (k, vs))) FACETS).map
      (fun pairs =>
        { state := fun k =>
            match pairs.find? (fun p => p.1 = k) with
            | some p => p.2
            | none => st k
          modalCountry :=
            match uspGet q (str "country") with
            | some c => if c.isEmpty then none else some c
            | none => none })
  else some { state := st, modalCountry := none }

/-- Uppercase a string (JS `toUpperCase`; country codes are ASCII, where
`Char.toUpper` agrees with it). -/
def toUpperStr (s : Str) : Str := s.map Char.toUpper

/-- The `metas` table: a JS object keyed by country-code string. -/
abbrev Metas := Str → Option CountryRec

/-- The lookup of `showCountryModal` (app.js line 539):
`metas[code.toUpperCase()] || metas[code] || null`. -/
def countryLookup (metas : Metas) (code : Str) : Option CountryRec :=
  (metas (toUpperStr code)).or (metas code)

/-- `showCountryModal` (app.js lines 538-585), effect part: `none` when the
lookup fails (silent no-op: no modal, no state or hash change); otherwise
the record shown and, when `updateHash` is set, the new hash written. -/
def showCountryModal (metas : Metas) (st : FilterState) (code : Str) (updateHash : Bool) :
    Option (CountryRec × Option Str) :=
  match countryLookup metas code with
  | none => none
  | some c =>
    some (c, if updateHash then some (serializeStateToHash st (some code)) else none)

/-- Lexicographic order on `Nat` lists, as a boolean. -/
def lexLe : List Nat → List Nat → Bool
  | [], _ => true
  | _ :: _, [] => false
  | x :: xs, y :: ys => if x < y then true else if y < x then false else lexLe xs ys

/-- Primary collation key.  Modelled from the spec: the browser
`localeCompare` (ECMA-402) for the root locale restricted to ASCII compares
case-folded text at primary strength. -/
def primaryKey (s : Str) : List Nat := s.map (fun c => c.toLower.toNat + 1)

/-- Tertiary collation key: with default options a case difference breaks a
primary tie, lowercase before uppercase (root-locale ICU behaviour). -/
def tertiaryKey (s : Str) : List Nat := s.map (fun c => if c.isUpper then 1 else 0)

/-- Model of default-options `a.localeCompare(b) <= 0` (case-sensitive at
the tie-breaking level), used by `renderCountryList` at app.js line 440. -/
def localeLeDefault (a b : Str) : Bool :=
  lexLe (primaryKey a ++ 0 :: tertiaryKey a) (primaryKey b ++ 0 :: tertiaryKey b)

/-- Model of base-sensitivity (case-insensitive) locale comparison, the
comparison the spec's sentence describes (and the one app.js line 112 uses
for facet chips). -/
def localeLeBase (a b : Str) : Bool := lexLe (primaryKey a) (primaryKey b)

/-- The order in which `renderCountryList` (app.js lines 438-441) renders
the matches: sorted by `t(a.name).localeCompare(t(b.name))` with a stable
sort (JS `Array.sort` is stable). -/
def renderCountryListOrder (tr : Str → Str) (ms : List (Str × CountryRec)) :
    List (Str × CountryRec) :=
  List.insertionSort (fun a b => localeLeDefault (tr a.2.name) (tr b.2.name) = true) ms

theorem facetTest_nil (v : FacetValue) : facetTest [] v = true := by
  simp [facetTest]

theorem facetTest_absent (sel : List Str) (h : sel ≠ []) :
    facetTest sel .absent = false := by
  unfold facetTest jsFalsy
  simp [h]

/-- Claim C2: for a sequence-valued facet and a non-empty selection set, the
facet's test passes iff every selected value appears in the country's
sequence (a subset test, not an overlap test). -/
theorem sequence_facet_subset_semantics (c : CountryRec) (k : Str) (st : FilterState)
    (vs : List Str) (hsel : st k ≠ []) (hval : c.attrs k = .seq vs) :
    (facetTest (st k) (c.attrs k) = true ↔ ∀ v ∈ st k, v ∈ vs) := by
  rw [hval]
  unfold facetTest jsFalsy
  simp [hsel]

/-- Claim C2 witness: a country with `cameras = [A,B,C]` matches the
selection `{A,B}` but not `{A,D}`. -/
theorem sequence_facet_subset_semantics_witness :
    (facetTest [str "A", str "B"] (FacetValue.seq [str "A", str "B", str "C"]) = true) ∧
    (facetTest [str "A", str "D"] (FacetValue.seq [str "A", str "B", str "C"]) ≠ true) := by
  constructor
  · exact (sequence_facet_subset_semantics ⟨[], fun _ => .seq [str "A", str "B", str "C"]⟩
      (str "cameras") (fun _ => [str "A", str "B"]) [str "A", str "B", str "C"]
      (by decide) rfl).mpr (by decide)
  · intro hcontr
    have h := (sequence_facet_subset_semantics ⟨[], fun _ => .seq [str "A", str "B", str "C"]⟩
      (str "cameras") (fun _ => [str "A", str "D"]) [str "A", str "B", str "C"]
      (by decide) rfl).mp hcontr
    exact absurd (h (str "D") (by decide)) (by decide)

/-- Claim C3 counterexample: a country whose stored scalar is the empty
string is rejected even when the empty string is in the selection set,
because `if (!val) return false` treats the falsy `""` like an absent value
(so "passes iff the scalar is a member of the selection" fails at this
input; a selection containing `""` is reachable, e.g. from the fragment
`#!driving=a,,`). -/
theorem scalar_facet_empty_string_counterexample :
    facetTest [str ""] (FacetValue.scalar (str "")) = false ∧ (str "") ∈ [str ""] := by
  decide

/-- Claim C3 (amended): for a scalar-valued facet whose stored scalar is a
non-empty string and a non-empty selection set, the facet's test passes iff
the scalar is a member of the selection set. -/
theorem scalar_facet_membership_semantics (c : CountryRec) (k : Str) (st : FilterState)
    (s : Str) (hsel : st k ≠ []) (hs : s ≠ []) (hval : c.attrs k = .scalar s) :
    (facetTest (st k) (c.attrs k) = true ↔ s ∈ st k) := by
  rw [hval]
  unfold facetTest jsFalsy
  simp [hsel, hs]

/-- Claim C3 witness: a country with `driving = "right"` matches the
selection `{"right","left"}` but not `{"left"}`. -/
theorem scalar_facet_membership_semantics_witness :
    (facetTest [str "right", str "left"] (FacetValue.scalar (str "right")) = true) ∧
    (facetTest [str "left"] (FacetValue.scalar (str "right")) ≠ true) := by
  constructor
  · exact (scalar_facet_membership_semantics ⟨[], fun _ => .scalar (str "right")⟩
      (str "driving") (fun _ => [str "right", str "left"]) (str "right")
      (by decide) (by decide) rfl).mpr (by decide)
  · intro hcontr
    have h := (scalar_facet_membership_semantics ⟨[], fun _ => .scalar (str "right")⟩
      (str "driving") (fun _ => [str "left"]) (str "right")
      (by decide) (by decide) rfl).mp hcontr
    exact absurd h (by decide)

/-- Claim C4: a facet with a non-empty selection excludes every country with
no stored value for that facet, regardless of facet shape. -/
theorem absent_facet_excludes (st : FilterState) (c : CountryRec) (k : Str)
    (hk : k ∈ FACETS) (hsel : st k ≠ []) (hval : c.attrs k = .absent) :
    matchesAllFilters st c = false := by
  unfold matchesAllFilters
  have hfail : facetTest (st k) (c.attrs k) = false := by
    rw [hval]; exact facetTest_absent _ hsel
  rw [List.all_eq_false]
  exact ⟨k, hk, by simp [hfail]⟩

/-- Claim C4 witness: a country with no `cameras` value is excluded when a
`cameras` selection is active. -/
theorem absent_facet_excludes_witness :
    matchesAllFilters (fun _ => [str "blur"]) ⟨str "X", fun _ => .absent⟩ = false :=
  absent_facet_excludes (fun _ => [str "blur"]) ⟨str "X", fun _ => .absent⟩
    (str "cameras") (by decide) (by decide) rfl

/-- Claim C5: the empty filter state (including the state produced by
`clearAll`) matches every country, and any filter state's match result is a
subset of the full table. -/
theorem conjunctive_filtering (metas : List (Str × CountryRec)) (st0 st : FilterState) :
    computeMatches metas emptyFilters = metas ∧
    computeMatches metas (clearAll st0) = metas ∧
    computeMatches metas st ⊆ metas := by
  refine ⟨?_, ?_, fun p hp => List.mem_of_mem_filter hp⟩
  · apply List.filter_eq_self.mpr
    intro p _
    simp [matchesAllFilters, emptyFilters, facetTest_nil]
  · apply List.filter_eq_self.mpr
    intro p _
    unfold matchesAllFilters
    rw [List.all_eq_true]
    intro k hk
    simp [clearAll, hk, facetTest_nil]

/-- Claim C8: decoding a fragment that does not begin with the `#!` sentinel
is a no-op: the filter state is returned unchanged and no focused-country
view is requested. -/
theorem no_sentinel_noop (hash : Str) (st : FilterState)
    (h : ¬ (str "#!").isPrefixOf hash = true) :
    parseHashToState hash st = some ⟨st, none⟩ := by
  unfold parseHashToState
  rw [if_neg h]

/-- Claim C8 witness: the plain anchor fragment `#top` leaves the state
unchanged. -/
theorem no_sentinel_noop_witness :
    parseHashToState (str "#top") emptyFilters = some ⟨emptyFilters, none⟩ :=
  no_sentinel_noop (str "#top") emptyFilters (by decide)

theorem char_valid_nat (c : Char) : Nat.isValidChar c.toNat := c.valid

theorem char_surrogate_free (c : Char) : c.toNat < 55296 ∨ 57343 < c.toNat := by
  rcases char_valid_nat c with h | ⟨h1, _⟩
  · exact Or.inl h
  · exact Or.inr h1

theorem char_toNat_lt (c : Char) : c.toNat < 1114112 := by
  rcases char_valid_nat c with h | ⟨_, h2⟩
  · omega
  · exact h2

theorem hexVal_hexDigitChar : ∀ m, m < 16 → hexVal (hexDigitChar m) = some m := by decide

theorem contByte_iff (b : Nat) : contByte b = true ↔ 128 ≤ b ∧ b < 192 := by
  simp [contByte]

theorem utf8Bytes_lt (n : Nat) (h : n < 1114112) : ∀ b ∈ utf8Bytes n, b < 256 := by
  intro b hb
  unfold utf8Bytes at hb
  split_ifs at hb with h1 h2 h3 <;> simp at hb <;> omega

theorem map_ofNat_toNat (s : Str) : (s.map Char.toNat).map Char.ofNat = s := by
  simp [List.map_map, Function.comp_def, Char.ofNat_toNat]

theorem utf8Bytes_ne_nil (n : Nat) : utf8Bytes n ≠ [] := by
  unfold utf8Bytes
  split_ifs <;> simp

theorem strBytes_nil : strBytes [] = [] := rfl

theorem strBytes_cons (c : Char) (s : Str) :
    strBytes (c :: s) = utf8Bytes c.toNat ++ strBytes s := by
  simp [strBytes]

theorem utf8Step_bytes (n : Nat) (hv : Nat.isValidChar n) (rest : List Nat) :
    utf8Step (utf8Bytes n ++ rest) = some (n, rest) := by
  have hsur : n < 55296 ∨ 57343 < n := by
    rcases hv with h | ⟨h1, _⟩
    · exact Or.inl h
    · exact Or.inr h1
  have hlt : n < 1114112 := by
    rcases hv with h | ⟨_, h2⟩
    · omega
    · exact h2
  unfold utf8Bytes
  split_ifs with h1 h2 h3
  · simp only [List.cons_append, List.nil_append]
    simp only [utf8Step]
    rw [if_pos h1]
  · simp only [List.cons_append, List.nil_append]
    simp only [utf8Step]
    rw [if_neg (by omega), if_neg (by omega), if_pos (by omega)]
    simp only [utf8Step2]
    rw [if_pos (by rw [contByte_iff]; omega)]
    have harith : (192 + n / 64 - 192) * 64 + (128 + n % 64 - 128) = n := by omega
    rw [harith]
  · simp only [List.cons_append, List.nil_append]
    simp only [utf8Step]
    rw [if_neg (by omega), if_neg (by omega), if_neg (by omega), if_pos (by omega)]
    simp only [utf8Step3]
    rw [if_pos (by
      simp only [Bool.and_eq_true, Bool.or_eq_true, decide_eq_true_eq, contByte_iff]
      omega)]
    have harith :
        (224 + n / 4096 - 224) * 4096 + (128 + n / 64 % 64 - 128) * 64 + (128 + n % 64 - 128)
          = n := by omega
    rw [harith]
  · simp only [List.cons_append, List.nil_append]
    simp only [utf8Step]
    rw [if_neg (by omega), if_neg (by omega), if_neg (by omega), if_neg (by omega),
      if_pos (by omega)]
    simp only [utf8Step4]
    rw [if_pos (by
      simp only [Bool.and_eq_true, Bool.or_eq_true, decide_eq_true_eq, contByte_iff]
      omega)]
    have harith :
        (240 + n / 262144 - 240) * 262144 + (128 + n / 4096 % 64 - 128) * 4096 +
          (128 + n / 64 % 64 - 128) * 64 + (128 + n % 64 - 128) = n := by omega
    rw [harith]

theorem utf8Step_shrink (l : List Nat) (p : Nat × List Nat) (h : utf8Step l = some p) :
    p.2.length < l.length := by
  cases l with
  | nil => simp [utf8Step] at h
  | cons b rest =>
    simp only [utf8Step] at h
    split_ifs at h with h1 h2 h3 h4 h5
    · cases h
      simp only [List.length_cons]
      omega
    · cases rest with
      | nil => simp [utf8Step2] at h
      | cons b1 rest2 =>
        simp only [utf8Step2] at h
        split_ifs at h
        all_goals
          first
          | exact Option.noConfusion h
          | (injection h with h2
             subst h2
             dsimp only
             simp only [List.length_cons]
             omega)
    · cases rest with
      | nil => simp [utf8Step3] at h
      | cons b1 rest' =>
        cases rest' with
        | nil => simp [utf8Step3] at h
        | cons b2 rest2 =>
          simp only [utf8Step3] at h
          split_ifs at h
          all_goals
            first
            | exact Option.noConfusion h
            | (injection h with h2
               subst h2
               dsimp only
               simp only [List.length_cons]
               omega)
    · cases rest with
      | nil => simp [utf8Step4] at h
      | cons b1 rest' =>
        cases rest' with
        | nil => simp [utf8Step4] at h
        | cons b2 rest'' =>
          cases rest'' with
          | nil => simp [utf8Step4] at h
          | cons b3 rest2 =>
            simp only [utf8Step4] at h
            split_ifs at h
            all_goals
              first
              | exact Option.noConfusion h
              | (injection h with h2
                 subst h2
                 dsimp only
                 simp only [List.length_cons]
                 omega)

theorem utf8DecodeGo_nil (fuel : Nat) : utf8DecodeGo fuel [] = some [] := by
  cases fuel <;> simp [utf8DecodeGo]

theorem utf8DecodeGo_step (fuel : Nat) (l : List Nat) (hne : l ≠ []) (hlen : l.length ≤ fuel) :
    utf8DecodeGo fuel l =
      (utf8Step l).bind (fun p => (utf8DecodeGo (fuel - 1) p.2).map (fun t => p.1 :: t)) := by
  cases l with
  | nil => exact absurd rfl hne
  | cons b rest =>
    cases fuel with
    | zero => simp at hlen
    | succ g => simp [utf8DecodeGo]

theorem utf8DecodeGo_mono (fuel1 : Nat) : ∀ (l : List Nat) (fuel2 : Nat),
    l.length ≤ fuel1 → l.length ≤ fuel2 → utf8DecodeGo fuel1 l = utf8DecodeGo fuel2 l := by
  induction fuel1 with
  | zero =>
    intro l fuel2 h1 _
    have hl : l = [] := by cases l <;> simp_all
    subst hl
    rw [utf8DecodeGo_nil, utf8DecodeGo_nil]
  | succ g ih =>
    intro l fuel2 h1 h2
    cases l with
    | nil => rw [utf8DecodeGo_nil, utf8DecodeGo_nil]
    | cons b rest =>
      rw [utf8DecodeGo_step (g + 1) _ (by simp) h1, utf8DecodeGo_step fuel2 _ (by simp) h2]
      cases hstep : utf8Step (b :: rest) with
      | none => rfl
      | some p =>
        have hlt := utf8Step_shrink _ p hstep
        simp only [List.length_cons] at h1 h2 hlt
        simp only [Option.some_bind, Nat.add_sub_cancel]
        rw [ih p.2 (fuel2 - 1) (by omega) (by omega)]

theorem utf8Decode_nil : utf8Decode [] = some [] := rfl

theorem utf8Decode_strBytes_append (s : Str) (rest : List Nat) :
    utf8Decode (strBytes s ++ rest) =
      (utf8Decode rest).map (fun t => s.map Char.toNat ++ t) := by
  suffices h : ∀ fuel, (strBytes s ++ rest).length ≤ fuel →
      utf8DecodeGo fuel (strBytes s ++ rest) =
        (utf8Decode rest).map (fun t => s.map Char.toNat ++ t) by
    exact h _ le_rfl
  induction s with
  | nil =>
    intro fuel hf
    simp only [strBytes_nil, List.nil_append] at hf ⊢
    rw [show utf8Decode rest = utf8DecodeGo rest.length rest from rfl]
    rw [utf8DecodeGo_mono fuel rest rest.length hf le_rfl]
    cases utf8DecodeGo rest.length rest <;> simp
  | cons c s ih =>
    intro fuel hf
    rw [strBytes_cons, List.append_assoc] at hf ⊢
    have hne : utf8Bytes c.toNat ++ (strBytes s ++ rest) ≠ [] := by
      cases hb : utf8Bytes c.toNat with
      | nil => exact absurd hb (utf8Bytes_ne_nil _)
      | cons x xs => simp
    rw [utf8DecodeGo_step fuel _ hne hf]
    rw [utf8Step_bytes c.toNat (char_valid_nat c)]
    simp only [Option.some_bind]
    have hlen2 : (strBytes s ++ rest).length ≤ fuel - 1 := by
      cases hbs : utf8Bytes c.toNat with
      | nil => exact absurd hbs (utf8Bytes_ne_nil _)
      | cons x xs =>
        rw [hbs] at hf
        simp only [List.length_cons, List.length_append] at hf ⊢
        omega
    rw [ih (fuel - 1) hlen2]
    cases utf8Decode rest <;> simp

theorem utf8Decode_strBytes (s : Str) :
    utf8Decode (strBytes s) = some (s.map Char.toNat) := by
  have h := utf8Decode_strBytes_append s []
  rw [List.append_nil] at h
  rw [h, utf8Decode_nil]
  simp

theorem utf8LenientGo_nil (fuel : Nat) : utf8LenientGo fuel [] = [] := by
  cases fuel <;> simp [utf8LenientGo]

theorem utf8LenientGo_step_some (fuel : Nat) (l : List Nat) (p : Nat × List Nat)
    (hlen : l.length ≤ fuel) (hstep : utf8Step l = some p) :
    utf8LenientGo fuel l = p.1 :: utf8LenientGo (fuel - 1) p.2 := by
  cases l with
  | nil => simp [utf8Step] at hstep
  | cons b rest =>
    cases fuel with
    | zero => simp at hlen
    | succ g => simp [utf8LenientGo, hstep]

theorem utf8LenientGo_step_none (fuel : Nat) (b : Nat) (rest : List Nat)
    (hlen : (b :: rest).length ≤ fuel) (hstep : utf8Step (b :: rest) = none) :
    utf8LenientGo fuel (b :: rest) = 65533 :: utf8LenientGo (fuel - 1) rest := by
  cases fuel with
  | zero => simp at hlen
  | succ g => simp [utf8LenientGo, hstep]

theorem utf8LenientGo_mono (fuel1 : Nat) : ∀ (l : List Nat) (fuel2 : Nat),
    l.length ≤ fuel1 → l.length ≤ fuel2 → utf8LenientGo fuel1 l = utf8LenientGo fuel2 l := by
  induction fuel1 with
  | zero =>
    intro l fuel2 h1 _
    have hl : l = [] := by cases l <;> simp_all
    subst hl
    rw [utf8LenientGo_nil, utf8LenientGo_nil]
  | succ g ih =>
    intro l fuel2 h1 h2
    cases l with
    | nil => rw [utf8LenientGo_nil, utf8LenientGo_nil]
    | cons b rest =>
      cases hstep : utf8Step (b :: rest) with
      | none =>
        rw [utf8LenientGo_step_none (g + 1) b rest h1 hstep,
          utf8LenientGo_step_none fuel2 b rest h2 hstep]
        simp only [List.length_cons] at h1 h2
        simp only [Nat.add_sub_cancel]
        rw [ih rest (fuel2 - 1) (by omega) (by omega)]
      | some p =>
        have hlt := utf8Step_shrink _ p hstep
        rw [utf8LenientGo_step_some (g + 1) _ p h1 hstep,
          utf8LenientGo_step_some fuel2 _ p h2 hstep]
        simp only [List.length_cons] at h1 h2 hlt
        simp only [Nat.add_sub_cancel]
        rw [ih p.2 (fuel2 - 1) (by omega) (by omega)]

theorem utf8DecodeLenient_nil : utf8DecodeLenient [] = [] := rfl

theorem utf8DecodeLenient_strBytes_append (s : Str) (rest : List Nat) :
    utf8DecodeLenient (strBytes s ++ rest) = s.map Char.toNat ++ utf8DecodeLenient rest := by
  suffices h : ∀ fuel, (strBytes s ++ rest).length ≤ fuel →
      utf8LenientGo fuel (strBytes s ++ rest) = s.map Char.toNat ++ utf8DecodeLenient rest by
    exact h _ le_rfl
  induction s with
  | nil =>
    intro fuel hf
    simp only [strBytes_nil, List.nil_append] at hf ⊢
    rw [show utf8DecodeLenient rest = utf8LenientGo rest.length rest from rfl]
    rw [utf8LenientGo_mono fuel rest rest.length hf le_rfl]
    simp
  | cons c s ih =>
    intro fuel hf
    rw [strBytes_cons, List.append_assoc] at hf ⊢
    rw [utf8LenientGo_step_some fuel _ (c.toNat, strBytes s ++ rest) hf
      (utf8Step_bytes c.toNat (char_valid_nat c) _)]
    have hlen2 : (strBytes s ++ rest).length ≤ fuel - 1 := by
      cases hbs : utf8Bytes c.toNat with
      | nil => exact absurd hbs (utf8Bytes_ne_nil _)
      | cons x xs =>
        rw [hbs] at hf
        simp only [List.length_cons, List.length_append] at hf ⊢
        omega
    rw [ih (fuel - 1) hlen2]
    simp

theorem utf8DecodeLenient_strBytes (s : Str) :
    utf8DecodeLenient (strBytes s) = s.map Char.toNat := by
  have h := utf8DecodeLenient_strBytes_append s []
  rw [List.append_nil] at h
  rw [h, utf8DecodeLenient_nil, List.append_nil]

theorem utf8DecodeLenient_cons_ascii (b : Nat) (hb : b < 128) (rest : List Nat) :
    utf8DecodeLenient (b :: rest) = b :: utf8DecodeLenient rest := by
  show utf8LenientGo (b :: rest).length (b :: rest) = _
  have hstep : utf8Step (b :: rest) = some (b, rest) := by
    simp only [utf8Step]
    rw [if_pos hb]
  rw [utf8LenientGo_step_some _ _ (b, rest) le_rfl hstep]
  simp only [List.length_cons, Nat.add_sub_cancel]
  rfl

theorem unreservedChar_ne_pct (c : Char) (h : unreservedChar c = true) : c ≠ '%' := by
  intro heq
  subst heq
  exact absurd h (by decide)

theorem unreservedChar_ne_plus (c : Char) (h : unreservedChar c = true) : c ≠ '+' := by
  intro heq
  subst heq
  exact absurd h (by decide)

theorem strBytes_append (a b : Str) : strBytes (a ++ b) = strBytes a ++ strBytes b := by
  simp [strBytes]

theorem pctDecodeBytes_nil : pctDecodeBytes [] = some [] := rfl

theorem pctDecodeBytes_cons_plain (c : Char) (hc : c ≠ '%') (rest : Str) :
    pctDecodeBytes (c :: rest) = (pctDecodeBytes rest).map (fun t => utf8Bytes c.toNat ++ t) := by
  rw [pctDecodeBytes.eq_def]
  simp only
  rw [if_neg hc]

theorem pctDecodeBytes_no_pct (s : Str) (h : '%' ∉ s) :
    pctDecodeBytes s = some (strBytes s) := by
  induction s with
  | nil => rfl
  | cons c rest ih =>
    have hc : c ≠ '%' := by
      intro heq
      exact h (heq ▸ List.mem_cons_self c rest)
    rw [pctDecodeBytes_cons_plain c hc, ih (fun hm => h (List.mem_cons_of_mem _ hm))]
    simp [strBytes_cons]

theorem decodeURIComponentModel_no_pct (s : Str) (h : '%' ∉ s) :
    decodeURIComponentModel s = some s := by
  unfold decodeURIComponentModel
  rw [pctDecodeBytes_no_pct s h]
  simp only [Option.some_bind]
  rw [utf8Decode_strBytes]
  simp only [Option.map_some']
  rw [map_ofNat_toNat]

theorem formBytesGo_nil (fuel : Nat) : formBytesGo fuel [] = [] := by
  cases fuel <;> rfl

theorem formBytes_nil : formBytes [] = [] := rfl

theorem formBytesGo_mono (fuel1 : Nat) : ∀ (l : Str) (fuel2 : Nat),
    l.length ≤ fuel1 → l.length ≤ fuel2 → formBytesGo fuel1 l = formBytesGo fuel2 l := by
  induction fuel1 with
  | zero =>
    intro l fuel2 h1 _
    have hl : l = [] := by cases l <;> simp_all
    subst hl
    rw [formBytesGo_nil, formBytesGo_nil]
  | succ g ih =>
    intro l fuel2 h1 h2
    cases l with
    | nil => rw [formBytesGo_nil, formBytesGo_nil]
    | cons c rest =>
      cases fuel2 with
      | zero => simp at h2
      | succ g2 =>
        simp only [List.length_cons] at h1 h2
        simp only [formBytesGo]
        by_cases hc : c = '%'
        · rw [if_pos hc, if_pos hc]
          cases rest with
          | nil => rw [formBytesGo_nil, formBytesGo_nil]
          | cons hch t =>
            cases t with
            | nil =>
              rw [ih [hch] g2 (by simp at h1 ⊢; omega) (by simp at h2 ⊢; omega)]
            | cons lch t2 =>
              simp only [List.length_cons] at h1 h2
              simp only [ih t2 g2 (by omega) (by omega),
                ih (hch :: lch :: t2) g2 (by simp only [List.length_cons]; omega)
                  (by simp only [List.length_cons]; omega)]
        · rw [if_neg hc, if_neg hc]
          by_cases hp : c = '+'
          · rw [if_pos hp, if_pos hp, ih rest g2 (by omega) (by omega)]
          · rw [if_neg hp, if_neg hp, ih rest g2 (by omega) (by omega)]

theorem formBytes_cons_plain (c : Char) (hc : c ≠ '%') (hp : c ≠ '+') (rest : Str) :
    formBytes (c :: rest) = utf8Bytes c.toNat ++ formBytes rest := by
  show formBytesGo (rest.length + 1) (c :: rest) = _
  simp only [formBytesGo]
  rw [if_neg hc, if_neg hp]
  rfl

theorem formBytes_pct (h l : Char) (a b : Nat) (ha : hexVal h = some a)
    (hb : hexVal l = some b) (rest : Str) :
    formBytes ('%' :: h :: l :: rest) = (16 * a + b) :: formBytes rest := by
  show formBytesGo (rest.length + 2 + 1) ('%' :: h :: l :: rest) = _
  simp only [formBytesGo]
  simp only [if_true]
  simp only [ha, hb]
  rw [formBytesGo_mono (rest.length + 2) rest rest.length (by omega) le_rfl]
  rfl

theorem formBytes_escaped (bs : List Nat) (hb : ∀ b ∈ bs, b < 256) (rest : Str) :
    formBytes ((bs.map pctEncodeByte).flatten ++ rest) = bs ++ formBytes rest := by
  induction bs with
  | nil => simp
  | cons b bs ih =>
    have hb0 : b < 256 := hb b (List.mem_cons_self b bs)
    simp only [List.map_cons, List.flatten_cons, List.append_assoc]
    show formBytes ('%' :: hexDigitChar (b / 16) :: hexDigitChar (b % 16) ::
      ((bs.map pctEncodeByte).flatten ++ rest)) = _
    rw [formBytes_pct _ _ (b / 16) (b % 16) (hexVal_hexDigitChar _ (by omega))
      (hexVal_hexDigitChar _ (by omega))]
    rw [ih (fun x hx => hb x (List.mem_cons_of_mem _ hx))]
    have harith : 16 * (b / 16) + b % 16 = b := by omega
    rw [harith]
    rfl

theorem encodeURIComponent_cons (c : Char) (s : Str) :
    encodeURIComponent (c :: s) =
      (if unreservedChar c then [c] else ((utf8Bytes c.toNat).map pctEncodeByte).flatten) ++
        encodeURIComponent s := by
  simp [encodeURIComponent]

theorem formBytes_encode_append (s : Str) (rest : Str) :
    formBytes (encodeURIComponent s ++ rest) = strBytes s ++ formBytes rest := by
  induction s with
  | nil => simp [encodeURIComponent, strBytes_nil]
  | cons c s ih =>
    rw [encodeURIComponent_cons, List.append_assoc]
    by_cases hu : unreservedChar c = true
    · rw [if_pos hu]
      simp only [List.cons_append, List.nil_append]
      rw [formBytes_cons_plain c (unreservedChar_ne_pct c hu) (unreservedChar_ne_plus c hu),
        ih, strBytes_cons, List.append_assoc]
    · rw [if_neg hu]
      rw [formBytes_escaped (utf8Bytes c.toNat) (utf8Bytes_lt c.toNat (char_toNat_lt c)), ih,
        strBytes_cons, List.append_assoc]

theorem formBytes_plain_append (s : Str) (h1 : '%' ∉ s) (h2 : '+' ∉ s) (rest : Str) :
    formBytes (s ++ rest) = strBytes s ++ formBytes rest := by
  induction s with
  | nil => simp [strBytes_nil]
  | cons c s ih =>
    have hc : c ≠ '%' := by
      intro heq
      exact h1 (heq ▸ List.mem_cons_self c s)
    have hp : c ≠ '+' := by
      intro heq
      exact h2 (heq ▸ List.mem_cons_self c s)
    simp only [List.cons_append]
    rw [formBytes_cons_plain c hc hp,
      ih (fun hm => h1 (List.mem_cons_of_mem _ hm)) (fun hm => h2 (List.mem_cons_of_mem _ hm)),
      strBytes_cons, List.append_assoc]

theorem formDecode_encode (s : Str) : formDecode (encodeURIComponent s) = s := by
  unfold formDecode
  rw [← List.append_nil (encodeURIComponent s), formBytes_encode_append, formBytes_nil,
    List.append_nil, utf8DecodeLenient_strBytes, map_ofNat_toNat]

theorem formBytes_plain (s : Str) (h1 : '%' ∉ s) (h2 : '+' ∉ s) :
    formBytes s = strBytes s := by
  have h := formBytes_plain_append s h1 h2 []
  rwa [List.append_nil, formBytes_nil, List.append_nil] at h

theorem formDecode_plain (s : Str) (h1 : '%' ∉ s) (h2 : '+' ∉ s) : formDecode s = s := by
  unfold formDecode
  rw [formBytes_plain s h1 h2, utf8DecodeLenient_strBytes, map_ofNat_toNat]

theorem joinSep_cons_cons (sep : Char) (a b : Str) (t : List Str) :
    joinSep sep (a :: b :: t) = a ++ sep :: joinSep sep (b :: t) := rfl

theorem formBytes_join_encoded (vs : List Str) :
    formBytes (joinSep ',' (vs.map encodeURIComponent)) = strBytes (joinSep ',' vs) := by
  induction vs with
  | nil =>
    show formBytes [] = strBytes []
    rw [formBytes_nil, strBytes_nil]
  | cons v vs ih =>
    cases vs with
    | nil =>
      show formBytes (joinSep ',' [encodeURIComponent v]) = strBytes (joinSep ',' [v])
      rw [show joinSep ',' [encodeURIComponent v] = encodeURIComponent v from rfl,
        show joinSep ',' [v] = v from rfl]
      rw [← List.append_nil (encodeURIComponent v), formBytes_encode_append, formBytes_nil,
        List.append_nil]
    | cons v2 vs2 =>
      simp only [List.map_cons] at ih ⊢
      rw [joinSep_cons_cons, joinSep_cons_cons, formBytes_encode_append,
        strBytes_append, strBytes_cons]
      congr 1
      rw [formBytes_cons_plain ',' (by decide) (by decide), ih]

theorem formDecode_join_encoded (vs : List Str) :
    formDecode (joinSep ',' (vs.map encodeURIComponent)) = joinSep ',' vs := by
  unfold formDecode
  rw [formBytes_join_encoded, utf8DecodeLenient_strBytes, map_ofNat_toNat]

theorem splitOnChar_nil (sep : Char) : splitOnChar sep [] = [[]] := rfl

theorem splitOnChar_cons (sep c : Char) (rest : Str) :
    splitOnChar sep (c :: rest) =
      if c = sep then [] :: splitOnChar sep rest
      else (c :: (splitOnChar sep rest).headI) :: (splitOnChar sep rest).tail := by
  simp [splitOnChar]

theorem splitOnChar_not_mem (sep : Char) (s : Str) (h : sep ∉ s) :
    splitOnChar sep s = [s] := by
  induction s with
  | nil => rfl
  | cons c rest ih =>
    have hc : c ≠ sep := fun heq => h (heq ▸ List.mem_cons_self c rest)
    rw [splitOnChar_cons, if_neg hc, ih (fun hm => h (List.mem_cons_of_mem _ hm))]
    rfl

theorem splitOnChar_append (sep : Char) (s t : Str) (h : sep ∉ s) :
    splitOnChar sep (s ++ sep :: t) = s :: splitOnChar sep t := by
  induction s with
  | nil =>
    simp only [List.nil_append]
    rw [splitOnChar_cons, if_pos rfl]
  | cons c s' ih =>
    have hc : c ≠ sep := fun heq => h (heq ▸ List.mem_cons_self c s')
    simp only [List.cons_append]
    rw [splitOnChar_cons, if_neg hc, ih (fun hm => h (List.mem_cons_of_mem _ hm))]
    rfl

theorem splitOnChar_joinSep (sep : Char) (segs : List Str) (hne : segs ≠ [])
    (h : ∀ x ∈ segs, sep ∉ x) :
    splitOnChar sep (joinSep sep segs) = segs := by
  induction segs with
  | nil => exact absurd rfl hne
  | cons a t ih =>
    cases t with
    | nil => exact splitOnChar_not_mem sep a (h a (List.mem_cons_self a []))
    | cons b t2 =>
      rw [joinSep_cons_cons, splitOnChar_append sep a _ (h a (List.mem_cons_self a _)),
        ih (by simp) (fun x hx => h x (List.mem_cons_of_mem _ hx))]

theorem splitFirstEq_append (k v : Str) (hk : '=' ∉ k) :
    splitFirstEq (k ++ '=' :: v) = (k, v) := by
  induction k with
  | nil =>
    simp only [List.nil_append]
    simp [splitFirstEq]
  | cons c k' ih =>
    have hc : c ≠ '=' := fun heq => hk (heq ▸ List.mem_cons_self c k')
    simp only [List.cons_append]
    rw [splitFirstEq.eq_def]
    simp only
    rw [if_neg hc, ih (fun hm => hk (List.mem_cons_of_mem _ hm))]

theorem uspInit_eq_self (s : Str) (h : s.head? ≠ some '?') : uspInit s = s := by
  cases s with
  | nil => rfl
  | cons c rest =>
    have hc : c ≠ '?' := fun heq => h (by rw [heq]; rfl)
    simp only [uspInit]
    rw [if_neg hc]

theorem not_mem_encodeURIComponent (c0 : Char) (h1 : unreservedChar c0 = false)
    (h2 : c0 ≠ '%') (h3 : ∀ m, m < 16 → hexDigitChar m ≠ c0) (s : Str) :
    c0 ∉ encodeURIComponent s := by
  induction s with
  | nil => simp [encodeURIComponent]
  | cons c s ih =>
    rw [encodeURIComponent_cons]
    intro hmem
    rcases List.mem_append.mp hmem with hm | hm
    · by_cases hu : unreservedChar c = true
      · rw [if_pos hu] at hm
        simp only [List.mem_singleton] at hm
        subst hm
        rw [hu] at h1
        exact Bool.true_eq_false.mp h1
      · rw [if_neg hu] at hm
        rw [List.mem_flatten] at hm
        obtain ⟨chunk, hchunk, hc0⟩ := hm
        rw [List.mem_map] at hchunk
        obtain ⟨b, hb, rfl⟩ := hchunk
        have hblt : b < 256 := utf8Bytes_lt c.toNat (char_toNat_lt c) b hb
        unfold pctEncodeByte at hc0
        simp only [List.mem_cons, List.mem_singleton, List.not_mem_nil, or_false] at hc0
        rcases hc0 with rfl | rfl | rfl
        · exact h2 rfl
        · exact h3 (b / 16) (by omega) rfl
        · exact h3 (b % 16) (by omega) rfl
    · exact ih hm

theorem encodeURIComponent_all_unreserved (s : Str) (h : ∀ c ∈ s, unreservedChar c = true) :
    encodeURIComponent s = s := by
  induction s with
  | nil => rfl
  | cons c s ih =>
    rw [encodeURIComponent_cons, if_pos (h c (List.mem_cons_self c s)),
      ih (fun x hx => h x (List.mem_cons_of_mem _ hx))]
    rfl

theorem head?_ne_of_not_mem (l : Str) (c0 : Char) (h : c0 ∉ l) : l.head? ≠ some c0 := by
  cases l with
  | nil => simp
  | cons c rest =>
    simp only [List.head?_cons]
    intro heq
    injection heq with h2
    subst h2
    exact h (List.mem_cons_self _ _)

theorem mapOrThrow_some_of_forall (f : α → Option β) (g : α → β) (l : List α)
    (h : ∀ x ∈ l, f x = some (g x)) : mapOrThrow f l = some (l.map g) := by
  induction l with
  | nil => rfl
  | cons a t ih =>
    simp only [mapOrThrow, h a (List.mem_cons_self a t),
      ih (fun x hx => h x (List.mem_cons_of_mem _ hx))]
    rfl

theorem mem_setAdd (l : List Str) (x y : Str) : x ∈ setAdd l y ↔ x ∈ l ∨ x = y := by
  unfold setAdd
  split_ifs with hy
  · constructor
    · exact Or.inl
    · rintro (h | rfl)
      · exact h
      · exact hy
  · simp

theorem mem_foldl_setAdd (l : List Str) : ∀ (acc : List Str) (x : Str),
    x ∈ l.foldl setAdd acc ↔ x ∈ acc ∨ x ∈ l := by
  induction l with
  | nil => simp
  | cons a t ih =>
    intro acc x
    simp only [List.foldl_cons]
    rw [ih (setAdd acc a) x, mem_setAdd]
    simp only [List.mem_cons]
    tauto

theorem joinSep_ne_nil (sep : Char) (a : Str) (t : List Str) (h : a ≠ []) :
    joinSep sep (a :: t) ≠ [] := by
  cases t with
  | nil => exact h
  | cons b t2 =>
    rw [joinSep_cons_cons]
    cases a with
    | nil => simp
    | cons c as => simp

theorem mem_joinSep (sep : Char) (c0 : Char) (l : List Str) (h : c0 ∈ joinSep sep l) :
    c0 = sep ∨ ∃ x ∈ l, c0 ∈ x := by
  induction l with
  | nil => cases h
  | cons a t ih =>
    cases t with
    | nil => exact Or.inr ⟨a, List.mem_cons_self a [], h⟩
    | cons b t2 =>
      rw [joinSep_cons_cons] at h
      rcases List.mem_append.mp h with hm | hm
      · exact Or.inr ⟨a, List.mem_cons_self a _, hm⟩
      · rcases List.mem_cons.mp hm with rfl | hm2
        · exact Or.inl rfl
        · rcases ih hm2 with h1 | ⟨x, hx, hcx⟩
          · exact Or.inl h1
          · exact Or.inr ⟨x, List.mem_cons_of_mem _ hx, hcx⟩

theorem head?_append_of_ne_nil (k y : Str) (h : k ≠ []) : (k ++ y).head? = k.head? := by
  cases k with
  | nil => exact absurd rfl h
  | cons c as => rfl

theorem joinSep_head?_ne (sep : Char) (c0 : Char) (segs : List Str)
    (h : ∀ s ∈ segs, s.head? ≠ some c0) (hsep : sep ≠ c0) :
    (joinSep sep segs).head? ≠ some c0 := by
  induction segs with
  | nil => simp [joinSep]
  | cons a t ih =>
    cases t with
    | nil => exact h a (List.mem_cons_self a [])
    | cons b t2 =>
      rw [joinSep_cons_cons]
      cases a with
      | nil =>
        simp only [List.nil_append, List.head?_cons]
        intro heq
        injection heq with h2
        exact hsep h2
      | cons c as =>
        simp only [List.cons_append, List.head?_cons]
        have := h (c :: as) (List.mem_cons_self _ _)
        simpa using this

theorem not_mem_of_all_unreserved (c0 : Char) (h0 : unreservedChar c0 = false) (k : Str)
    (hk : ∀ c ∈ k, unreservedChar c = true) : c0 ∉ k := by
  intro hm
  rw [hk c0 hm] at h0
  exact Bool.true_eq_false.mp h0

theorem head?_ne_of_all_unreserved (c0 : Char) (h0 : unreservedChar c0 = false) (k : Str)
    (hk : ∀ c ∈ k, unreservedChar c = true) : k.head? ≠ some c0 :=
  head?_ne_of_not_mem k c0 (not_mem_of_all_unreserved c0 h0 k hk)

theorem find?_facet_entries (g : Str → Str) (sel : Str → Bool) (k : Str) :
    ∀ (ks : List Str), k ∈ ks →
    ((ks.filterMap (fun x => if sel x then none else some (x, g x))).find?
        (fun p => p.1 = k)) =
      (if sel k then none else some (k, g k)) := by
  intro ks
  induction ks with
  | nil => intro hk; cases hk
  | cons a t ih =>
    intro hk
    simp only [List.filterMap_cons]
    by_cases hsa : sel a = true
    · rw [if_pos hsa]
      rcases List.mem_cons.mp hk with rfl | hk'
      · rw [if_pos hsa]
        rw [List.find?_eq_none]
        intro p hp
        rcases List.mem_filterMap.mp hp with ⟨x, hx, hxp⟩
        by_cases hsx : sel x = true
        · rw [if_pos hsx] at hxp
          cases hxp
        · rw [if_neg hsx] at hxp
          injection hxp with h2
          subst h2
          simp only [decide_eq_true_eq]
          intro heq
          subst heq
          rw [hsa] at hsx
          exact hsx rfl
      · exact ih hk'
    · rw [if_neg hsa]
      by_cases hak : a = k
      · subst hak
        rw [List.find?_cons_of_pos _ (by simp)]
        rw [if_neg hsa]
      · rw [List.find?_cons_of_neg _ (by simp [hak])]
        rcases List.mem_cons.mp hk with rfl | hk'
        · exact absurd rfl hak
        · exact ih hk'

theorem find?_map_keyed (g : Str → List Str) (k : Str) :
    ∀ (ks : List Str), k ∈ ks →
    ((ks.map (fun x => (x, g x))).find? (fun p => p.1 = k)) = some (k, g k) := by
  intro ks
  induction ks with
  | nil => intro hk; cases hk
  | cons a t ih =>
    intro hk
    simp only [List.map_cons]
    by_cases hak : a = k
    · subst hak
      rw [List.find?_cons_of_pos _ (by simp)]
    · rw [List.find?_cons_of_neg _ (by simp [hak])]
      rcases List.mem_cons.mp hk with rfl | hk'
      · exact absurd rfl hak
      · exact ih hk'

theorem uspPairs_joinSep (segs : List Str)
    (hsep : ∀ x ∈ segs, '&' ∉ x)
    (hhead : (joinSep '&' segs).head? ≠ some '?') :
    uspPairs (joinSep '&' segs) =
      (segs.filter (fun seg => !seg.isEmpty)).map
        (fun seg => (formDecode (splitFirstEq seg).1, formDecode (splitFirstEq seg).2)) := by
  unfold uspPairs
  rw [uspInit_eq_self _ hhead]
  cases segs with
  | nil => rfl
  | cons a t => rw [splitOnChar_joinSep '&' (a :: t) (by simp) hsep]

theorem sentinel_isPrefixOf (x : Str) : (str "#!").isPrefixOf (str "#!" ++ x) = true := by
  show List.isPrefixOf ['#', '!'] ('#' :: '!' :: x) = true
  simp [List.isPrefixOf]

theorem sentinel_drop (x : Str) : (str "#!" ++ x).drop 2 = x := rfl

theorem facets_unreserved : ∀ k ∈ FACETS, ∀ c ∈ k, unreservedChar c = true := by decide

theorem facets_ne_country : ∀ k ∈ FACETS, k ≠ str "country" := by decide

theorem facets_ne_nil : ∀ k ∈ FACETS, k ≠ [] := by decide

theorem filterMap_congr_mem (f g : α → Option β) (l : List α) (h : ∀ x ∈ l, f x = g x) :
    l.filterMap f = l.filterMap g := by
  induction l with
  | nil => rfl
  | cons a t ih =>
    simp only [List.filterMap_cons, h a (List.mem_cons_self a t),
      ih (fun x hx => h x (List.mem_cons_of_mem _ hx))]

theorem ne_nil_append (k y : Str) (h : k ≠ []) : k ++ y ≠ [] := by
  cases k with
  | nil => exact absurd rfl h
  | cons c as => simp

theorem uspPairs_joined_segments (segs : List Str)
    (hamp : ∀ s ∈ segs, '&' ∉ s)
    (hne : ∀ s ∈ segs, s ≠ [])
    (hhd : ∀ s ∈ segs, s.head? ≠ some '?') :
    uspPairs (joinSep '&' segs) =
      segs.map (fun seg => (formDecode (splitFirstEq seg).1, formDecode (splitFirstEq seg).2)) := by
  rw [uspPairs_joinSep segs hamp (joinSep_head?_ne '&' '?' segs hhd (by decide))]
  congr 1
  apply List.filter_eq_self.mpr
  intro s hs
  simp [List.isEmpty_iff, hne s hs]

theorem mem_facet_segments (st : FilterState) (s : Str)
    (hs : s ∈ FACETS.filterMap (fun k =>
      if (st k).isEmpty then none
      else some (encodeURIComponent k ++ '=' :: joinSep ',' ((st k).map encodeURIComponent)))) :
    ∃ k, k ∈ FACETS ∧ (st k).isEmpty = false ∧
      s = k ++ '=' :: joinSep ',' ((st k).map encodeURIComponent) := by
  rcases List.mem_filterMap.mp hs with ⟨k, hk, heq⟩
  by_cases he : (st k).isEmpty
  · rw [if_pos he] at heq
    cases heq
  · rw [if_neg he] at heq
    injection heq with h2
    rw [encodeURIComponent_all_unreserved k (facets_unreserved k hk)] at h2
    exact ⟨k, hk, Bool.eq_false_iff.mpr he, h2.symm⟩

theorem facet_seg_amp (st : FilterState) (k : Str) (hk : k ∈ FACETS) :
    '&' ∉ k ++ '=' :: joinSep ',' ((st k).map encodeURIComponent) := by
  intro hm
  rcases List.mem_append.mp hm with hm1 | hm2
  · exact not_mem_of_all_unreserved '&' (by decide) k (facets_unreserved k hk) hm1
  · rcases List.mem_cons.mp hm2 with heq | hm3
    · exact absurd heq (by decide)
    · rcases mem_joinSep ',' '&' _ hm3 with heq | ⟨x, hx, hcx⟩
      · exact absurd heq (by decide)
      · rcases List.mem_map.mp hx with ⟨v, _, rfl⟩
        exact not_mem_encodeURIComponent '&' (by decide) (by decide) (by decide) v hcx

theorem country_seg_amp (c : Str) : '&' ∉ str "country=" ++ encodeURIComponent c := by
  intro hm
  rcases List.mem_append.mp hm with hm1 | hm2
  · exact absurd hm1 (by decide)
  · exact not_mem_encodeURIComponent '&' (by decide) (by decide) (by decide) c hm2

theorem decode_facet_segments (st : FilterState) :
    (FACETS.filterMap (fun k =>
        if (st k).isEmpty then none
        else some (encodeURIComponent k ++ '=' :: joinSep ',' ((st k).map encodeURIComponent)))).map
      (fun seg => (formDecode (splitFirstEq seg).1, formDecode (splitFirstEq seg).2)) =
    FACETS.filterMap (fun k =>
      if (st k).isEmpty then none else some (k, joinSep ',' (st k))) := by
  rw [List.map_filterMap]
  apply filterMap_congr_mem
  intro k hk
  by_cases he : (st k).isEmpty
  · rw [if_pos he, if_pos he]
    rfl
  · rw [if_neg he, if_neg he]
    simp only [Option.map_some']
    have hkun := facets_unreserved k hk
    rw [encodeURIComponent_all_unreserved k hkun,
      splitFirstEq_append k _ (not_mem_of_all_unreserved '=' (by decide) k hkun)]
    dsimp only
    rw [formDecode_plain k (not_mem_of_all_unreserved '%' (by decide) k hkun)
        (not_mem_of_all_unreserved '+' (by decide) k hkun),
      formDecode_join_encoded]

theorem serializeStateToHash_eq (st : FilterState) (cc : Option Str) :
    serializeStateToHash st cc =
      str "#!" ++ joinSep '&'
        (FACETS.filterMap (fun k =>
          if (st k).isEmpty then none
          else some (encodeURIComponent k ++ '=' ::
            joinSep ',' ((st k).map encodeURIComponent))) ++
         (match cc with
          | some c => if c.isEmpty then [] else [str "country=" ++ encodeURIComponent c]
          | none => [])) := rfl

theorem uspPairs_serialized (st : FilterState) (cc : Option Str)
    (hcc : ∀ c, cc = some c → c ≠ []) :
    uspPairs ((serializeStateToHash st cc).drop 2) =
      FACETS.filterMap
        (fun k => if (st k).isEmpty then none else some (k, joinSep ',' (st k))) ++
      (match cc with
       | some c => [(str "country", c)]
       | none => []) := by
  rw [serializeStateToHash_eq, sentinel_drop]
  have hfacetconds : ∀ s ∈ FACETS.filterMap (fun k =>
      if (st k).isEmpty then none
      else some (encodeURIComponent k ++ '=' :: joinSep ',' ((st k).map encodeURIComponent))),
      '&' ∉ s ∧ s ≠ [] ∧ s.head? ≠ some '?' := by
    intro s hs
    rcases mem_facet_segments st s hs with ⟨k, hk, _, rfl⟩
    refine ⟨facet_seg_amp st k hk, ne_nil_append k _ (facets_ne_nil k hk), ?_⟩
    rw [head?_append_of_ne_nil k _ (facets_ne_nil k hk)]
    exact head?_ne_of_all_unreserved '?' (by decide) k (facets_unreserved k hk)
  cases cc with
  | none =>
    rw [uspPairs_joined_segments _
      (by
        intro s hs
        rw [List.append_nil] at hs
        exact (hfacetconds s hs).1)
      (by
        intro s hs
        rw [List.append_nil] at hs
        exact (hfacetconds s hs).2.1)
      (by
        intro s hs
        rw [List.append_nil] at hs
        exact (hfacetconds s hs).2.2)]
    rw [List.append_nil, List.append_nil, decode_facet_segments]
  | some c =>
    have hc : c ≠ [] := hcc c rfl
    have hcE : c.isEmpty = false := by
      cases c with
      | nil => exact absurd rfl hc
      | cons a t => rfl
    simp only [hcE, Bool.false_eq_true, if_false]
    rw [uspPairs_joined_segments _
      (by
        intro s hs
        rcases List.mem_append.mp hs with hs1 | hs2
        · exact (hfacetconds s hs1).1
        · rw [List.mem_singleton] at hs2
          subst hs2
          exact country_seg_amp c)
      (by
        intro s hs
        rcases List.mem_append.mp hs with hs1 | hs2
        · exact (hfacetconds s hs1).2.1
        · rw [List.mem_singleton] at hs2
          subst hs2
          exact ne_nil_append (str "country=") _ (by decide))
      (by
        intro s hs
        rcases List.mem_append.mp hs with hs1 | hs2
        · exact (hfacetconds s hs1).2.2
        · rw [List.mem_singleton] at hs2
          subst hs2
          rw [head?_append_of_ne_nil _ _ (by decide)]
          decide)]
    rw [List.map_append, decode_facet_segments]
    congr 1
    simp only [List.map_cons, List.map_nil]
    have hsplit : str "country=" ++ encodeURIComponent c =
        str "country" ++ '=' :: encodeURIComponent c := rfl
    rw [hsplit, splitFirstEq_append (str "country") _ (by decide)]
    dsimp only
    rw [formDecode_plain (str "country") (by decide) (by decide), formDecode_encode]

theorem uspGet_serialized_facet (st : FilterState) (cc : Option Str) (k : Str)
    (hk : k ∈ FACETS) (hcc : ∀ c, cc = some c → c ≠ []) :
    uspGet ((serializeStateToHash st cc).drop 2) k =
      if (st k).isEmpty then none else some (joinSep ',' (st k)) := by
  unfold uspGet
  rw [uspPairs_serialized st cc hcc, List.find?_append,
    find?_facet_entries (fun x => joinSep ',' (st x)) (fun x => (st x).isEmpty) k FACETS hk]
  by_cases he : (st k).isEmpty
  · rw [if_pos he, if_pos he]
    simp only [Option.none_or]
    have hck : str "country" ≠ k := fun h => facets_ne_country k hk h.symm
    cases cc with
    | none => rfl
    | some c =>
      rw [List.find?_cons_of_neg _ (by simp [hck])]
      rfl
  · rw [if_neg he, if_neg he]
    rfl

theorem uspGet_serialized_country (st : FilterState) (cc : Option Str)
    (hcc : ∀ c, cc = some c → c ≠ []) :
    uspGet ((serializeStateToHash st cc).drop 2) (str "country") =
      match cc with
      | some c => some c
      | none => none := by
  unfold uspGet
  rw [uspPairs_serialized st cc hcc, List.find?_append]
  have h1 : ((FACETS.filterMap
      (fun x => if (st x).isEmpty then none else some (x, joinSep ',' (st x)))).find?
        (fun p => p.1 = str "country")) = none := by
    rw [List.find?_eq_none]
    intro p hp
    rcases List.mem_filterMap.mp hp with ⟨k, hk, heq⟩
    by_cases he : (st k).isEmpty
    · rw [if_pos he] at heq
      cases heq
    · rw [if_neg he] at heq
      injection heq with h2
      subst h2
      simp only [decide_eq_true_eq]
      exact facets_ne_country k hk
  rw [h1]
  simp only [Option.none_or]
  cases cc with
  | none => rfl
  | some c =>
    rw [List.find?_cons_of_pos _ (by simp)]
    rfl

theorem facetFromHash_serialized (st : FilterState) (cc : Option Str) (k : Str)
    (hk : k ∈ FACETS) (hcc : ∀ c, cc = some c → c ≠ [])
    (hval : ∀ v ∈ st k, v ≠ [] ∧ ',' ∉ v ∧ '%' ∉ v) :
    facetFromHash ((serializeStateToHash st cc).drop 2) k =
      some (if (st k).isEmpty then [] else (st k).foldl setAdd []) := by
  unfold facetFromHash
  rw [uspGet_serialized_facet st cc k hk hcc]
  by_cases he : (st k).isEmpty
  · rw [if_pos he, if_pos he]
  · rw [if_neg he, if_neg he]
    have hstne : st k ≠ [] := fun h => he (by rw [h]; rfl)
    have hjoin_ne : joinSep ',' (st k) ≠ [] := by
      cases hst : st k with
      | nil => exact absurd hst hstne
      | cons v0 vs =>
        exact joinSep_ne_nil ',' v0 vs (hval v0 (hst ▸ List.mem_cons_self v0 vs)).1
    simp only
    rw [if_neg (fun h => hjoin_ne (List.isEmpty_iff.mp h))]
    rw [splitOnChar_joinSep ',' (st k) hstne (fun v hv => (hval v hv).2.1)]
    rw [mapOrThrow_some_of_forall decodeURIComponentModel id (st k)
      (fun v hv => decodeURIComponentModel_no_pct v (hval v hv).2.2)]
    rw [List.map_id]
    rfl

/-- Claim C1: decoding the fragment produced by encoding a Filter State
(plus an optional focused-country code) yields a state with identical
per-facet set membership and the same focused country.  Valid values are
non-empty and contain neither the `,` separator nor a `%` (the spec's
"mod value-encoding edge cases"); a percent sign would be decoded twice
(`URLSearchParams` then `decodeURIComponent`) and a comma is the value
separator. -/
theorem hash_roundtrip (st st0 : FilterState) (cc : Option Str)
    (hval : ∀ k ∈ FACETS, ∀ v ∈ st k, v ≠ [] ∧ ',' ∉ v ∧ '%' ∉ v)
    (hcc : ∀ c, cc = some c → c ≠ []) :
    ∃ pr : ParseOutcome,
      parseHashToState (serializeStateToHash st cc) st0 = some pr ∧
      (∀ k ∈ FACETS, ∀ v : Str, v ∈ pr.state k ↔ v ∈ st k) ∧
      pr.modalCountry = cc := by
  unfold parseHashToState
  rw [if_pos (by rw [serializeStateToHash_eq]; exact sentinel_isPrefixOf _)]
  dsimp only
  have hmap : mapOrThrow
      (fun k => (facetFromHash ((serializeStateToHash st cc).drop 2) k).map (fun vs => (k, vs)))
      FACETS =
      some (FACETS.map
        (fun k => (k, if (st k).isEmpty then [] else (st k).foldl setAdd []))) := by
    apply mapOrThrow_some_of_forall
    intro k hk
    rw [facetFromHash_serialized st cc k hk hcc (hval k hk)]
    rfl
  rw [hmap]
  simp only [Option.map_some']
  refine ⟨_, rfl, ?_, ?_⟩
  · intro k hk v
    simp only
    rw [find?_map_keyed _ k FACETS hk]
    simp only
    by_cases he : (st k).isEmpty
    · rw [if_pos he, List.isEmpty_iff.mp he]
    · rw [if_neg he, mem_foldl_setAdd]
      simp
  · simp only
    rw [uspGet_serialized_country st cc hcc]
    cases cc with
    | none => rfl
    | some c =>
      have hc := hcc c rfl
      simp only
      rw [if_neg (fun h => hc (List.isEmpty_iff.mp h))]

/-- Claim C1 witness: a concrete state (cameras {blur, mirror}, driving
{right}) with focused country `fr` round-trips through the hash. -/
theorem hash_roundtrip_witness :
    ∃ pr : ParseOutcome,
      parseHashToState
        (serializeStateToHash
          (fun k => if k = str "cameras" then [str "blur", str "mirror"]
            else if k = str "driving" then [str "right"] else [])
          (some (str "fr")))
        emptyFilters = some pr ∧
      (∀ k ∈ FACETS, ∀ v : Str,
        v ∈ pr.state k ↔
          v ∈ (if k = str "cameras" then [str "blur", str "mirror"]
            else if k = str "driving" then [str "right"] else ([] : List Str))) ∧
      pr.modalCountry = some (str "fr") :=
  hash_roundtrip
    (fun k => if k = str "cameras" then [str "blur", str "mirror"]
      else if k = str "driving" then [str "right"] else [])
    emptyFilters (some (str "fr")) (by decide)
    (by
      intro c hc
      injection hc with h2
      subst h2
      decide)

theorem mapOrThrow_congr (f g : α → Option β) (l : List α) (h : ∀ x ∈ l, f x = g x) :
    mapOrThrow f l = mapOrThrow g l := by
  induction l with
  | nil => rfl
  | cons a t ih =>
    simp only [mapOrThrow, h a (List.mem_cons_self a t),
      ih (fun x hx => h x (List.mem_cons_of_mem _ hx))]

theorem parseHashToState_congr (q1 q2 : Str) (st : FilterState)
    (h : ∀ k, (k ∈ FACETS ∨ k = str "country") → uspGet q1 k = uspGet q2 k) :
    parseHashToState (str "#!" ++ q1) st = parseHashToState (str "#!" ++ q2) st := by
  unfold parseHashToState
  rw [if_pos (sentinel_isPrefixOf q1), if_pos (sentinel_isPrefixOf q2)]
  dsimp only
  simp only [sentinel_drop]
  have hmap : mapOrThrow (fun k => (facetFromHash q1 k).map (fun vs => (k, vs))) FACETS =
      mapOrThrow (fun k => (facetFromHash q2 k).map (fun vs => (k, vs))) FACETS := by
    apply mapOrThrow_congr
    intro k hk
    unfold facetFromHash
    rw [h k (Or.inl hk)]
  rw [hmap]
  simp only [h (str "country") (Or.inr rfl)]

theorem uspGet_insert_unknown (l1 l2 : List Str) (useg : Str) (key : Str)
    (hamp : ∀ s ∈ l1 ++ l2, '&' ∉ s)
    (huamp : '&' ∉ useg)
    (hne : useg ≠ [])
    (hkey : formDecode (splitFirstEq useg).1 ≠ key)
    (hhd : ∀ s ∈ l1 ++ l2, s.head? ≠ some '?')
    (huhd : useg.head? ≠ some '?') :
    uspGet (joinSep '&' (l1 ++ useg :: l2)) key = uspGet (joinSep '&' (l1 ++ l2)) key := by
  have hamp1 : ∀ s ∈ l1 ++ useg :: l2, '&' ∉ s := by
    intro s hs
    rcases List.mem_append.mp hs with hs1 | hs2
    · exact hamp s (List.mem_append.mpr (Or.inl hs1))
    · rcases List.mem_cons.mp hs2 with rfl | hs3
      · exact huamp
      · exact hamp s (List.mem_append.mpr (Or.inr hs3))
  have hhd1 : ∀ s ∈ l1 ++ useg :: l2, s.head? ≠ some '?' := by
    intro s hs
    rcases List.mem_append.mp hs with hs1 | hs2
    · exact hhd s (List.mem_append.mpr (Or.inl hs1))
    · rcases List.mem_cons.mp hs2 with rfl | hs3
      · exact huhd
      · exact hhd s (List.mem_append.mpr (Or.inr hs3))
  unfold uspGet
  rw [uspPairs_joinSep _ hamp1 (joinSep_head?_ne '&' '?' _ hhd1 (by decide)),
    uspPairs_joinSep _ hamp (joinSep_head?_ne '&' '?' _ hhd (by decide))]
  simp only [List.filter_append, List.filter_cons]
  rw [if_pos (by simp [List.isEmpty_iff, hne])]
  simp only [List.map_append, List.map_cons]
  rw [List.find?_append, List.find?_append, List.find?_cons_of_neg _ (by simp [hkey])]

/-- Claim C9: decoding a sentinel-prefixed fragment containing an extra
`key=value` segment whose key is neither a known facet key nor the reserved
key `country` ignores that segment: the parse result is exactly the result
of decoding the fragment without it, so known facets get what the
recognized segments specify and no failure is introduced. -/
theorem unknown_key_tolerance (l1 l2 : List Str) (uk uv : Str) (st : FilterState)
    (hamp : ∀ s ∈ l1 ++ l2, '&' ∉ s)
    (hhd : ∀ s ∈ l1 ++ l2, s.head? ≠ some '?')
    (hukamp : '&' ∉ uk) (huvamp : '&' ∉ uv)
    (hukeq : '=' ∉ uk)
    (hukne : uk ≠ []) (hukhd : uk.head? ≠ some '?')
    (hunk : formDecode uk ∉ FACETS) (huc : formDecode uk ≠ str "country") :
    parseHashToState (str "#!" ++ joinSep '&' (l1 ++ (uk ++ '=' :: uv) :: l2)) st =
      parseHashToState (str "#!" ++ joinSep '&' (l1 ++ l2)) st := by
  apply parseHashToState_congr
  intro k hkk
  apply uspGet_insert_unknown l1 l2 (uk ++ '=' :: uv) k hamp
  · intro hm
    rcases List.mem_append.mp hm with hm1 | hm2
    · exact hukamp hm1
    · rcases List.mem_cons.mp hm2 with heq | hm3
      · exact absurd heq (by decide)
      · exact huvamp hm3
  · exact ne_nil_append uk _ hukne
  · rw [splitFirstEq_append uk uv hukeq]
    dsimp only
    rcases hkk with hk | rfl
    · intro heq
      exact hunk (heq ▸ hk)
    · exact huc
  · exact hhd
  · rw [head?_append_of_ne_nil uk _ hukne]
    exact hukhd

/-- Claim C9 witness: the fragment `#!driving=left&foo=bar` decodes exactly
like `#!driving=left`. -/
theorem unknown_key_tolerance_witness :
    parseHashToState
        (str "#!" ++ joinSep '&' ([str "driving=left"] ++ (str "foo" ++ '=' :: str "bar") :: []))
        emptyFilters =
      parseHashToState (str "#!" ++ joinSep '&' ([str "driving=left"] ++ [])) emptyFilters :=
  unknown_key_tolerance [str "driving=left"] [] (str "foo") (str "bar") emptyFilters
    (by decide) (by decide) (by decide) (by decide) (by decide) (by decide) (by decide)
    (by decide) (by decide)

theorem mapOrThrow_pairs_find? (g : Str → Option (List Str)) (ks : List Str) :
    ∀ (pairs : List (Str × List Str)),
    mapOrThrow (fun k => (g k).map (fun vs => (k, vs))) ks = some pairs →
    ∀ k ∈ ks, ∃ vs, g k = some vs ∧ pairs.find? (fun p => p.1 = k) = some (k, vs) := by
  induction ks with
  | nil =>
    intro pairs _ k hk
    cases hk
  | cons a t ih =>
    intro pairs h k hk
    simp only [mapOrThrow] at h
    cases hga : g a with
    | none =>
      rw [hga] at h
      cases h
    | some va =>
      rw [hga] at h
      simp only [Option.map_some', Option.some_bind] at h
      cases hrest : mapOrThrow (fun k => (g k).map (fun vs => (k, vs))) t with
      | none =>
        rw [hrest] at h
        cases h
      | some prs =>
        rw [hrest] at h
        simp only [Option.map_some'] at h
        injection h with h2
        subst h2
        by_cases hak : a = k
        · subst hak
          exact ⟨va, hga, by rw [List.find?_cons_of_pos _ (by simp)]⟩
        · rcases List.mem_cons.mp hk with rfl | hk'
          · exact absurd rfl hak
          · obtain ⟨vs, hg, hf⟩ := ih prs hrest k hk'
            exact ⟨vs, hg, by rw [List.find?_cons_of_neg _ (by simp [hak])]; exact hf⟩

/-- Claim C10: decoding a sentinel-prefixed fragment fully replaces the
filter selections of every known facet: the result does not depend on the
prior Filter State; a facet whose key is missing (or has an empty value) in
the fragment ends up empty; and a facet listed with value `v` ends up with
exactly the set of `decodeURIComponent`-ed comma-separated pieces of `v`. -/
theorem parse_overwrites (hash : Str) (st st' : FilterState)
    (hsent : (str "#!").isPrefixOf hash = true)
    (hsome : (parseHashToState hash st).isSome = true) :
    ∃ pr pr' : ParseOutcome,
      parseHashToState hash st = some pr ∧
      parseHashToState hash st' = some pr' ∧
      (∀ k ∈ FACETS, pr'.state k = pr.state k) ∧
      (∀ k ∈ FACETS,
        ((uspGet (hash.drop 2) k = none ∨ uspGet (hash.drop 2) k = some []) →
          pr.state k = []) ∧
        (∀ v, uspGet (hash.drop 2) k = some v → v ≠ [] →
          ∃ vs, mapOrThrow decodeURIComponentModel (splitOnChar ',' v) = some vs ∧
            ∀ x, x ∈ pr.state k ↔ x ∈ vs)) := by
  unfold parseHashToState at hsome ⊢
  rw [if_pos hsent] at hsome
  rw [if_pos hsent, if_pos hsent]
  dsimp only at hsome ⊢
  cases hmt : mapOrThrow
      (fun k => (facetFromHash (hash.drop 2) k).map (fun vs => (k, vs))) FACETS with
  | none =>
    rw [hmt] at hsome
    simp at hsome
  | some pairs =>
    simp only [Option.map_some']
    refine ⟨_, _, rfl, rfl, ?_, ?_⟩
    · intro k hk
      obtain ⟨vs, _, hf⟩ := mapOrThrow_pairs_find? _ FACETS pairs hmt k hk
      simp only
      rw [hf]
    · intro k hk
      obtain ⟨vs, hg, hf⟩ := mapOrThrow_pairs_find? _ FACETS pairs hmt k hk
      constructor
      · intro hcase
        simp only
        rw [hf]
        unfold facetFromHash at hg
        rcases hcase with hnone | hempty
        · rw [hnone] at hg
          injection hg with h2
          exact h2.symm
        · rw [hempty] at hg
          simp only [List.isEmpty_nil, if_true] at hg
          injection hg with h2
          exact h2.symm
      · intro v hv hvne
        unfold facetFromHash at hg
        rw [hv] at hg
        simp only at hg
        rw [if_neg (fun h => hvne (List.isEmpty_iff.mp h))] at hg
        cases hmt2 : mapOrThrow decodeURIComponentModel (splitOnChar ',' v) with
        | none =>
          rw [hmt2] at hg
          cases hg
        | some ds =>
          rw [hmt2] at hg
          simp only [Option.map_some'] at hg
          injection hg with h2
          refine ⟨ds, rfl, ?_⟩
          intro x
          simp only
          rw [hf, ← h2, mem_foldl_setAdd]
          simp

/-- Claim C10 witness: decoding `#!driving=left` over a dirty prior state
and over the empty state gives the same facet selections. -/
theorem parse_overwrites_witness :
    ∃ pr pr' : ParseOutcome,
      parseHashToState (str "#!driving=left") (fun _ => [str "junk"]) = some pr ∧
      parseHashToState (str "#!driving=left") emptyFilters = some pr' ∧
      (∀ k ∈ FACETS, pr'.state k = pr.state k) ∧
      (∀ k ∈ FACETS,
        ((uspGet ((str "#!driving=left").drop 2) k = none ∨
            uspGet ((str "#!driving=left").drop 2) k = some []) →
          pr.state k = []) ∧
        (∀ v, uspGet ((str "#!driving=left").drop 2) k = some v → v ≠ [] →
          ∃ vs, mapOrThrow decodeURIComponentModel (splitOnChar ',' v) = some vs ∧
            ∀ x, x ∈ pr.state k ↔ x ∈ vs)) :=
  parse_overwrites (str "#!driving=left") (fun _ => [str "junk"]) emptyFilters
    (by decide) (by decide)

/-- Claim C6 counterexample: the detail-view lookup is not case-insensitive
in the supplied code.  With the record stored under the lowercase key `fr`,
the code `FR` (same letters up to case) finds nothing — the code tries
`metas[code.toUpperCase()]` (`FR`) and `metas[code]` (`FR`), never `fr` —
so no modal is shown although a record for that country exists. -/
theorem country_lookup_case_counterexample :
    (fun k => if k = str "fr"
        then some (⟨str "France", fun _ => FacetValue.absent⟩ : CountryRec)
        else none) (str "fr") ≠ none ∧
    toUpperStr (str "fr") = toUpperStr (str "FR") ∧
    showCountryModal
      (fun k => if k = str "fr"
        then some (⟨str "France", fun _ => FacetValue.absent⟩ : CountryRec)
        else none)
      emptyFilters (str "FR") false = none := by
  refine ⟨?_, rfl, rfl⟩
  simp

/-- Claim C6 (amended): the detail view looks a Country Record up by trying
the upper-cased code first and the raw code second — so it tolerates either
case in the stored key whenever the supplied code is lower-case (or matches
the stored case exactly) — and when neither key has a record it is a silent
no-op: no modal content is produced and no hash is written. -/
theorem showCountryModal_lookup (metas : Metas) (st : FilterState) (code : Str) (uh : Bool) :
    (metas (toUpperStr code) = none → metas code = none →
      showCountryModal metas st code uh = none) ∧
    (∀ r, metas (toUpperStr code) = some r →
      showCountryModal metas st code uh =
        some (r, if uh then some (serializeStateToHash st (some code)) else none)) ∧
    (∀ r, metas (toUpperStr code) = none → metas code = some r →
      showCountryModal metas st code uh =
        some (r, if uh then some (serializeStateToHash st (some code)) else none)) := by
  unfold showCountryModal countryLookup
  refine ⟨?_, ?_, ?_⟩
  · intro h1 h2
    rw [h1, h2]
    rfl
  · intro r h1
    rw [h1]
    rfl
  · intro r h1 h2
    rw [h1, h2]
    rfl

/-- Claim C6 witness: a lower-case code finds a record stored under the
upper-case key and one stored under the lower-case key, and an unknown code
is a silent no-op. -/
theorem showCountryModal_lookup_witness :
    showCountryModal
        (fun k => if k = str "FR"
          then some (⟨str "France", fun _ => FacetValue.absent⟩ : CountryRec) else none)
        emptyFilters (str "fr") false =
      some (⟨str "France", fun _ => FacetValue.absent⟩, none) ∧
    showCountryModal
        (fun k => if k = str "fr"
          then some (⟨str "France", fun _ => FacetValue.absent⟩ : CountryRec) else none)
        emptyFilters (str "fr") false =
      some (⟨str "France", fun _ => FacetValue.absent⟩, none) ∧
    showCountryModal (fun _ => none) emptyFilters (str "xx") false = none := by
  refine ⟨?_, ?_, ?_⟩
  · exact (showCountryModal_lookup
      (fun k => if k = str "FR"
        then some (⟨str "France", fun _ => FacetValue.absent⟩ : CountryRec) else none)
      emptyFilters (str "fr") false).2.1 _ rfl
  · exact (showCountryModal_lookup
      (fun k => if k = str "fr"
        then some (⟨str "France", fun _ => FacetValue.absent⟩ : CountryRec) else none)
      emptyFilters (str "fr") false).2.2 _ rfl rfl
  · exact (showCountryModal_lookup (fun _ => none) emptyFilters (str "xx") false).1 rfl rfl

theorem lexLe_cons_iff (x y : Nat) (xs ys : List Nat) :
    lexLe (x :: xs) (y :: ys) = true ↔ (x < y ∨ (x = y ∧ lexLe xs ys = true)) := by
  simp only [lexLe]
  split_ifs with h1 h2
  · simp [h1]
  · constructor
    · intro h
      exact absurd h (by simp)
    · rintro (h | ⟨rfl, _⟩) <;> omega
  · have hxy : x = y := by omega
    subst hxy
    constructor
    · intro h
      exact Or.inr ⟨rfl, h⟩
    · rintro (h | ⟨_, h⟩)
      · omega
      · exact h

theorem lexLe_total (a : List Nat) : ∀ (b : List Nat), lexLe a b = true ∨ lexLe b a = true := by
  induction a with
  | nil => intro b; left; rfl
  | cons x xs ih =>
    intro b
    cases b with
    | nil => right; rfl
    | cons y ys =>
      rw [lexLe_cons_iff, lexLe_cons_iff]
      rcases Nat.lt_trichotomy x y with h | h | h
      · exact Or.inl (Or.inl h)
      · subst h
        rcases ih ys with h2 | h2
        · exact Or.inl (Or.inr ⟨rfl, h2⟩)
        · exact Or.inr (Or.inr ⟨rfl, h2⟩)
      · exact Or.inr (Or.inl h)

theorem lexLe_trans (a : List Nat) : ∀ (b c : List Nat),
    lexLe a b = true → lexLe b c = true → lexLe a c = true := by
  induction a with
  | nil => intro b c _ _; rfl
  | cons x xs ih =>
    intro b c h1 h2
    cases b with
    | nil => exact absurd h1 (by simp [lexLe])
    | cons y ys =>
      cases c with
      | nil => exact absurd h2 (by simp [lexLe])
      | cons z zs =>
        rw [lexLe_cons_iff] at h1 h2 ⊢
        rcases h1 with h1 | ⟨rfl, h1⟩
        · rcases h2 with h2 | ⟨rfl, _⟩
          · exact Or.inl (Nat.lt_trans h1 h2)
          · exact Or.inl h1
        · rcases h2 with h2 | ⟨rfl, h2⟩
          · exact Or.inl h2
          · exact Or.inr ⟨rfl, ih ys zs h1 h2⟩

theorem primaryKey_pos (s : Str) : ∀ x ∈ primaryKey s, 0 < x := by
  intro x hx
  rcases List.mem_map.mp hx with ⟨c, _, rfl⟩
  omega

theorem lexLe_strip (p1 : List Nat) : ∀ (p2 t1 t2 : List Nat),
    (∀ x ∈ p1, 0 < x) → (∀ x ∈ p2, 0 < x) →
    lexLe (p1 ++ 0 :: t1) (p2 ++ 0 :: t2) = true → lexLe p1 p2 = true := by
  induction p1 with
  | nil => intro p2 t1 t2 _ _ _; rfl
  | cons x xs ih =>
    intro p2 t1 t2 hp1 hp2 h
    cases p2 with
    | nil =>
      simp only [List.cons_append, List.nil_append] at h
      rw [lexLe_cons_iff] at h
      have hx := hp1 x (List.mem_cons_self x xs)
      rcases h with h | ⟨h, _⟩ <;> omega
    | cons y ys =>
      simp only [List.cons_append] at h
      rw [lexLe_cons_iff] at h ⊢
      rcases h with h | ⟨rfl, h⟩
      · exact Or.inl h
      · exact Or.inr ⟨rfl, ih ys t1 t2 (fun a ha => hp1 a (List.mem_cons_of_mem _ ha))
          (fun a ha => hp2 a (List.mem_cons_of_mem _ ha)) h⟩

/-- Claim C7: the list surface renders the Match Result sorted by translated
display name under the locale-aware case-insensitive (base-sensitivity)
comparison — the order produced by the default `localeCompare` at app.js
line 440 respects the case-folded primary ordering — and the rendered list
is a permutation of the matches. -/
theorem render_list_sorted (tr : Str → Str) (ms : List (Str × CountryRec)) :
    List.Sorted (fun a b : Str × CountryRec => localeLeBase (tr a.2.name) (tr b.2.name) = true)
      (renderCountryListOrder tr ms) ∧
    List.Perm (renderCountryListOrder tr ms) ms := by
  constructor
  · have hs : List.Sorted
        (fun a b : Str × CountryRec => localeLeDefault (tr a.2.name) (tr b.2.name) = true)
        (renderCountryListOrder tr ms) := by
      unfold renderCountryListOrder
      haveI t1 : IsTotal (Str × CountryRec)
          (fun a b => localeLeDefault (tr a.2.name) (tr b.2.name) = true) :=
        ⟨fun a b => lexLe_total _ _⟩
      haveI t2 : IsTrans (Str × CountryRec)
          (fun a b => localeLeDefault (tr a.2.name) (tr b.2.name) = true) :=
        ⟨fun a b c => lexLe_trans _ _ _⟩
      exact List.sorted_insertionSort _ ms
    refine hs.imp ?_
    intro a b hab
    unfold localeLeDefault at hab
    unfold localeLeBase
    exact lexLe_strip _ _ _ _ (primaryKey_pos _) (primaryKey_pos _) hab
  · exact List.perm_insertionSort _ ms

/-- Claim C5 witness: on a one-country table, the empty and cleared states
match everything and a constrained state's result is a subset. -/
theorem conjunctive_filtering_witness :
    computeMatches [(str "fr", ⟨str "France", fun _ => FacetValue.absent⟩)] emptyFilters =
      [(str "fr", ⟨str "France", fun _ => FacetValue.absent⟩)] ∧
    computeMatches [(str "fr", ⟨str "France", fun _ => FacetValue.absent⟩)]
        (clearAll (fun _ => [str "x"])) =
      [(str "fr", ⟨str "France", fun _ => FacetValue.absent⟩)] ∧
    computeMatches [(str "fr", ⟨str "France", fun _ => FacetValue.absent⟩)]
        (fun _ => [str "left"]) ⊆
      [(str "fr", ⟨str "France", fun _ => FacetValue.absent⟩)] :=
  conjunctive_filtering [(str "fr", ⟨str "France", fun _ => FacetValue.absent⟩)]
    (fun _ => [str "x"]) (fun _ => [str "left"])

/-- Claim C7 witness: a concrete two-entry match list is rendered sorted
under the case-insensitive comparison and as a permutation. -/
theorem render_list_sorted_witness :
    List.Sorted
      (fun a b : Str × CountryRec => localeLeBase a.2.name b.2.name = true)
      (renderCountryListOrder (fun s => s)
        [(str "jp", ⟨str "Japan", fun _ => FacetValue.absent⟩),
         (str "fr", ⟨str "France", fun _ => FacetValue.absent⟩)]) ∧
    List.Perm
      (renderCountryListOrder (fun s => s)
        [(str "jp", ⟨str "Japan", fun _ => FacetValue.absent⟩),
         (str "fr", ⟨str "France", fun _ => FacetValue.absent⟩)])
      [(str "jp", ⟨str "Japan", fun _ => FacetValue.absent⟩),
       (str "fr", ⟨str "France", fun _ => FacetValue.absent⟩)] :=
  render_list_sorted (fun s => s)
    [(str "jp", ⟨str "Japan", fun _ => FacetValue.absent⟩),
     (str "fr", ⟨str "France", fun _ => FacetValue.absent⟩)]
